import Mathlib

/-!
Verification of the worktree lifecycle engine of the `parallel` (`git prl`)
repository, shallowly embedded in Lean.

The embedding follows the TypeScript library implementation in
`src/worktree.ts`, `src/commands/apply.ts`, the prune command and the
interactive `confirm` helper, together with the scripted twin in
`scripts/prl-common.sh` where a claim cites it.  Filesystem and git state is
modelled as explicit data (lists of directory-entry names and branch names);
external process calls are modelled by the effect their success or failure has
on that data, with unbounded `while` loops over name candidates rendered as
fuelled recursion returning `Option`.
-/

namespace Prl

/-! ### Name sanitization

`sanitizeSegment` (worktree.ts:44-51) is the chain: trim, toLowerCase,
globally replace each run of characters outside `[a-z0-9]` by one hyphen,
strip leading and trailing hyphen runs, then collapse hyphen runs to one
hyphen.  Each stage is embedded on `List Char`.
-/

/-- The character class `[a-z0-9]` of the sanitizer's regexes. -/
def okChar (c : Char) : Bool :=
  ('a' ≤ c && c ≤ 'z') || ('0' ≤ c && c ≤ '9')

/-- JS `String.prototype.trim`: strip leading and trailing whitespace. -/
def trimChars (cs : List Char) : List Char :=
  ((cs.dropWhile Char.isWhitespace).reverse.dropWhile Char.isWhitespace).reverse

/-- `replace(/[^a-z0-9]+/g, "-")`: each maximal run of characters outside
`[a-z0-9]` becomes a single hyphen.  The boolean records whether the previous
character was part of such a run whose hyphen is already emitted. -/
def replRuns : List Char → Bool → List Char
  | [], _ => []
  | c :: rest, prevBad =>
    if okChar c then c :: replRuns rest false
    else if prevBad then replRuns rest true
    else '-' :: replRuns rest true

/-- The trailing-hyphen half of `replace(/^-+|-+$/g, "")`: drop the maximal
trailing run of hyphens. -/
def dropTrailingH : List Char → List Char
  | [] => []
  | c :: rest =>
    match dropTrailingH rest with
    | [] => if c == '-' then [] else [c]
    | d :: t => c :: d :: t

/-- The last replace of the pipeline: collapse every run of hyphens to one
hyphen.  The boolean records whether the previous kept character was a
hyphen. -/
def collapseH : List Char → Bool → List Char
  | [], _ => []
  | c :: rest, prevH =>
    if c == '-' then
      if prevH then collapseH rest true else '-' :: collapseH rest true
    else c :: collapseH rest false

/-- The full sanitizer pipeline of worktree.ts:44-51 on character lists. -/
def sanitizeList (cs : List Char) : List Char :=
  collapseH
    (dropTrailingH
      ((replRuns ((trimChars cs).map Char.toLower) false).dropWhile
        (fun c => c == '-')))
    false

/-- `sanitizeSegment` (worktree.ts:44-51). -/
def sanitizeSegment (s : String) : String :=
  String.mk (sanitizeList s.data)

/-- `sanitizeSegment(x) || "agent"` as used at worktree.ts:54 and
worktree.ts:92: the empty string is falsy in JS, so an empty sanitization
falls back to the literal `"agent"`. -/
def sanitizeFallback (s : String) : String :=
  if sanitizeSegment s == "" then "agent" else sanitizeSegment s

/-! Well-formedness predicates for sanitized segments. -/

/-- Characters allowed to appear anywhere in a sanitized segment. -/
def goodChar (c : Char) : Bool := okChar c || c == '-'

/-- The first character (if any) is not a hyphen. -/
def headNotH : List Char → Bool
  | [] => true
  | c :: _ => !(c == '-')

/-- The last character (if any) is not a hyphen. -/
def lastNotH : List Char → Bool
  | [] => true
  | [c] => !(c == '-')
  | _ :: c :: t => lastNotH (c :: t)

/-- No two adjacent hyphens. -/
def noAdjH : List Char → Bool
  | [] => true
  | [_] => true
  | a :: b :: t => !(a == '-' && b == '-') && noAdjH (b :: t)

/-- Matcher for the regex tail `([a-z0-9]|-[a-z0-9])*` constrained so a hyphen
is always followed by an alphanumeric: together with `segMatch` this is
exactly `^[a-z0-9]+(-[a-z0-9]+)*$`. -/
def segRest : List Char → Bool
  | [] => true
  | [c] => okChar c
  | c :: d :: rest =>
    if okChar c then segRest (d :: rest)
    else if c == '-' then okChar d && segRest rest
    else false

/-- Matcher for the regex `^[a-z0-9]+(-[a-z0-9]+)*$`. -/
def segMatch : List Char → Bool
  | [] => false
  | c :: rest => okChar c && segRest rest

/-! ### Repository state and name resolution

`findAvailableWorktreeName` (worktree.ts:69-86), `findAvailableBranchName`
(worktree.ts:88-108) and the name-resolution phase of `createWorktree`
(worktree.ts:110-145).  The filesystem and git namespace is a list of
directory-entry names under the managed container `.prl-worktrees` plus a
list of existing branch names.  The unbounded `while` loops run on fuel and
return `none` when the fuel is exhausted.
-/

/-- Directory entries directly under `.prl-worktrees`, and existing branch
names, of one repository. -/
structure FsState where
  dirs : List String
  branches : List String
deriving DecidableEq, Repr

/-- `existsSync(join(prlDir, name))` after `ensurePrlDirectory` has run:
Node's `path.join` drops empty segments, so for the empty name the checked
path is the container itself, which `ensurePrlDirectory` (worktree.ts:36-42)
has just ensured exists. -/
def worktreeDirExists (s : FsState) (name : String) : Bool :=
  name == "" || s.dirs.contains name

/-- `branchExists` (worktree.ts:62-67): `git branch --list` prints a line
exactly when the branch exists. -/
def branchExistsB (s : FsState) (b : String) : Bool :=
  s.branches.contains b

/-- `buildBranchName` (worktree.ts:58-60). -/
def buildBranchName (w : String) : String := "prl/" ++ w

/-- `buildWorktreeName` (worktree.ts:53-56). -/
def buildWorktreeName (agent : String) : String := sanitizeFallback agent

/-- The candidate tried at iteration `k` of the worktree-name loop
(worktree.ts:74-83): the base name first, then `base-1`, `base-2`, ... -/
def wtCand (base : String) : Nat → String
  | 0 => base
  | k + 1 => base ++ "-" ++ Nat.repr (k + 1)

/-- The loop condition of `findAvailableWorktreeName` (worktree.ts:77-80):
the candidate directory exists under the container, or the branch
`prl/<candidate>` exists. -/
def wtTaken (s : FsState) (name : String) : Bool :=
  worktreeDirExists s name || branchExistsB s (buildBranchName name)

/-- The loop of `findAvailableWorktreeName` on fuel; `k` is the iteration
index, so the current candidate is `wtCand base k` and the source's `counter`
variable equals `k + 1`. -/
def findAvailAux (s : FsState) (base : String) : Nat → Nat → Option String
  | 0, _ => none
  | fuel + 1, k =>
    if wtTaken s (wtCand base k) then findAvailAux s base fuel (k + 1)
    else some (wtCand base k)

/-- `findAvailableWorktreeName` (worktree.ts:69-86). -/
def findAvailableWorktreeName (s : FsState) (base : String) (fuel : Nat) :
    Option String :=
  findAvailAux s base fuel 0

/-- The branch candidate for counter `n` in `findAvailableBranchName`
(worktree.ts:93-98). -/
def brCand (seg : String) (n : Nat) : String :=
  "prl/" ++ seg ++ "-" ++ Nat.repr n

/-- The loop of `findAvailableBranchName` on fuel, starting at counter 1. -/
def findBrAux (s : FsState) (seg : String) : Nat → Nat → Option String
  | 0, _ => none
  | fuel + 1, n =>
    if branchExistsB s (brCand seg n) then findBrAux s seg fuel (n + 1)
    else some (brCand seg n)

/-- `findAvailableBranchName` (worktree.ts:88-108). -/
def findAvailableBranchName (s : FsState) (agent : String) (fuel : Nat) :
    Option String :=
  findBrAux s (sanitizeFallback agent) fuel 1

/-- Result of the name-resolution phase of `createWorktree`: either the
explicit-name collision error thrown at worktree.ts:126-130 before any
mutation, or the chosen worktree and branch names. -/
inductive NameResolution where
  | collision (worktreeName : String)
  | ok (worktreeName branchName : String)
deriving DecidableEq, Repr

/-- The name-resolution phase of `createWorktree` (worktree.ts:117-145).
`if (options.worktreeName)` is a JS truthiness test, so an absent or empty
explicit name takes the default path. -/
def resolveCreateNames (s : FsState) (agent : String)
    (explicitName : Option String) (fuel : Nat) : Option NameResolution :=
  match explicitName with
  | some e =>
    if e == "" then
      (findAvailableWorktreeName s (buildWorktreeName agent) fuel).map
        (fun wt => .ok wt (buildBranchName wt))
    else
      if worktreeDirExists s (sanitizeSegment e) then
        some (.collision (sanitizeSegment e))
      else
        (findAvailableBranchName s agent fuel).map
          (fun br => .ok (sanitizeSegment e) br)
  | none =>
    (findAvailableWorktreeName s (buildWorktreeName agent) fuel).map
      (fun wt => .ok wt (buildBranchName wt))

/-! ### Creation rollback

The `cleanup` closure of `createWorktree` (worktree.ts:150-172) and the flag
discipline around the external `git worktree add` call
(worktree.ts:189-208).
-/

/-- Whether the worktree directory and the branch exist on the git side at
the moment the rollback runs. -/
structure GitSideState where
  dirExists : Bool
  brExists : Bool
deriving DecidableEq, Repr

/-- The `worktreeCreated` / `branchCreated` flags of worktree.ts:150-151. -/
structure CreatedFlags where
  worktreeCreated : Bool
  branchCreated : Bool
deriving DecidableEq, Repr

/-- Which removals `cleanup` (worktree.ts:153-172) attempts: the worktree
removal only when `worktreeCreated && existsSync(worktreePath)`, the branch
deletion only when `branchCreated && branchExists(...)`. -/
def cleanupAttempts (f : CreatedFlags) (s : GitSideState) : Bool × Bool :=
  (f.worktreeCreated && s.dirExists, f.branchCreated && s.brExists)

/-- The git-side state after `cleanup` runs and every attempted removal
succeeds (each attempt is best-effort; failures are ignored). -/
def cleanupRun (f : CreatedFlags) (s : GitSideState) : GitSideState :=
  let s1 : GitSideState :=
    if f.worktreeCreated && s.dirExists then { s with dirExists := false } else s
  if f.branchCreated && s1.brExists then { s1 with brExists := false } else s1

/-- The flag values while the external `git worktree add` call is still
pending and in its failure path: both flags are assigned only after the
`await` returns successfully (worktree.ts:198-199), so the signal handler
installed at worktree.ts:186-187 and the `catch` handler at
worktree.ts:200-203 always run `cleanup` with both flags false. -/
def pendingFlags : CreatedFlags := { worktreeCreated := false, branchCreated := false }

/-! ### Listing and descriptor lookup

`listWorktrees` (worktree.ts:257-279), `describeWorktreeByBranch`
(worktree.ts:281-287) and the scripted `list_worktrees`
(prl-common.sh:176-186).
-/

/-- One managed worktree as reconstructed by `listWorktrees`: `root` and the
worktree path are omitted because the path is always
`<root>/.prl-worktrees/<worktreeName>`. -/
structure WorktreeDescriptor where
  agent : String
  branchName : String
  worktreeName : String
deriving DecidableEq, Repr

/-- `listWorktrees` (worktree.ts:257-279): one descriptor per directory
entry under the container, branch name derived by the default formula; no
entry is excluded. -/
def listWorktreesModel (dirs : List String) : List WorktreeDescriptor :=
  dirs.map (fun w => { agent := w, branchName := buildBranchName w, worktreeName := w })

/-- `list_worktrees` (prl-common.sh:176-186): the entry named `template` is
excluded by `! -name template`. -/
def listWorktreesScript (dirs : List String) : List String :=
  dirs.filter (fun n => !(n == "template"))

/-- `describeWorktreeByBranch` (worktree.ts:281-287). -/
def describeWorktreeByBranchModel (dirs : List String) (branch : String) :
    Option WorktreeDescriptor :=
  (listWorktreesModel dirs).find? (fun c => c.branchName == branch)

/-! ### Interactive confirmation and prune

`confirm` (src/utils/prompt.ts) and `pruneWorktrees` (src/commands/prune.ts).
-/

/-- `answer.trim().toLowerCase()` from `confirm`. -/
def lowerTrim (answer : String) : String :=
  String.mk ((trimChars answer.data).map Char.toLower)

/-- The affirmative test of `confirm`: the normalized answer is `y` or
`yes`. -/
def affirmative (answer : String) : Bool :=
  lowerTrim answer == "y" || lowerTrim answer == "yes"

/-- `confirm` (prompt.ts): returns false immediately, without reading input,
when either stream is not a TTY; otherwise reads one line and accepts
exactly `y`/`yes` after trim and lowercase. -/
def confirmModel (tty : Bool) (answer : String) : Bool :=
  if !tty then false else affirmative answer

/-- The per-descriptor loop of `pruneWorktrees`: `answers i` is the line the
operator would type at the i-th prompt.  In a non-interactive session the
prompt is skipped (`shouldRemove` is false without consuming input).
Returns the descriptors that are removed. -/
def pruneFrom (tty : Bool) (answers : Nat → String) :
    Nat → List WorktreeDescriptor → List WorktreeDescriptor
  | _, [] => []
  | i, d :: ds =>
    if (if tty then confirmModel tty (answers i) else false) then
      d :: pruneFrom tty answers (i + 1) ds
    else
      pruneFrom tty answers (i + 1) ds

/-- `pruneWorktrees` (prune.ts): list the managed worktrees, then prompt one
by one; returns the removed descriptors. -/
def pruneModel (tty : Bool) (dirs : List String) (answers : Nat → String) :
    List WorktreeDescriptor :=
  pruneFrom tty answers 0 (listWorktreesModel dirs)

/-! ### Apply

`applyAgent` (src/commands/apply.ts).  Git itself is an external
collaborator; its contract is taken from the spec's interface section:
`merge --no-ff` on success always creates a merge commit whose two parents
are the previous base tip and the merged branch tip, even when a
fast-forward would be possible.
-/

/-- Commits, as far as apply needs them: pre-existing commits are abstract,
a successful no-fast-forward merge produces a two-parent merge commit. -/
inductive Commit where
  | base (id : Nat) : Commit
  | merge (p1 p2 : Commit) : Commit
deriving DecidableEq, Repr

/-- Git commands apply can issue. -/
inductive GitCmd where
  | fetch
  | fetchBranch (b : String)
  | checkout (b : String)
  | mergeNoFF (b : String)
  | mergeFF (b : String)
  | worktreeRemove (w : String)
  | branchDelete (b : String)
deriving DecidableEq, Repr

/-- The failure cases of `applyAgent`, in source order: already on the base
branch (apply.ts:78-82), detached HEAD or non-prl branch (apply.ts:85-90),
branch has no worktree directory (apply.ts:102-106), metadata lookup failed
(apply.ts:108-110), merge failed (apply.ts:204-212). -/
inductive ApplyError where
  | alreadyOnBase
  | notPrlBranch
  | missingWorktree
  | missingMetadata
  | mergeFailed
deriving DecidableEq, Repr

/-- What a successful apply leaves behind. -/
structure ApplyOutcome where
  baseTip : Commit
  worktreeRemoved : Bool
deriving DecidableEq, Repr

/-- One invocation's surroundings: the current branch, the managed directory
entries, TTY state, the remote situation, the operator's prompt answers, and
whether the external merge calls succeed. -/
structure ApplyEnv where
  currentBranch : String
  dirs : List String
  isTTY : Bool
  hasUpstream : Bool
  remoteAhead : Bool
  fetchAnswer : String
  syncOk : Bool
  syncedTip : Commit
  mergeOk : Bool
  autoCleanup : Bool
  cleanupAnswer : String
  baseTip : Commit
  agentTip : Commit
deriving Repr

/-- JS `String.prototype.startsWith` on character lists. -/
def leadsB : List Char → List Char → Bool
  | [], _ => true
  | _ :: _, [] => false
  | a :: as, b :: bs => a == b && leadsB as bs

/-- `currentBranch.startsWith("prl/")` (apply.ts:85). -/
def startsWithModel (p s : String) : Bool := leadsB p.data s.data

/-- Whether the optional base-sync phase runs (apply.ts:116-121): the base
branch has an upstream and is behind it, the session is interactive, and the
operator answers the fetch prompt affirmatively. -/
def doSync (env : ApplyEnv) : Bool :=
  env.hasUpstream && env.remoteAhead && env.isTTY &&
    confirmModel env.isTTY env.fetchAnswer

/-- `checkRemoteAhead` (apply.ts:12-53) fetches quietly whenever an upstream
is configured. -/
def remoteCmds (env : ApplyEnv) : List GitCmd :=
  if env.hasUpstream then [.fetch] else []

/-- The base-sync phase (apply.ts:122-154): fetch the base branch, check out
base, merge the remote ref (a plain merge, fast-forward allowed), check out
the agent branch again; on failure it still attempts the checkout back and
falls through to the merge phase. -/
def syncCmds (env : ApplyEnv) : List GitCmd :=
  if doSync env then
    [.fetchBranch "main", .checkout "main", .mergeFF "origin/main",
      .checkout env.currentBranch]
  else []

/-- The base tip right before the final merge: updated by a successful sync,
unchanged otherwise (sync failures are warnings only). -/
def baseAfterSync (env : ApplyEnv) : Commit :=
  if doSync env && env.syncOk then env.syncedTip else env.baseTip

/-- The cleanup decision after a successful merge (apply.ts:184-203):
unconditional under `--auto-cleanup`, by prompt when interactive, skipped
otherwise. -/
def doCleanup (env : ApplyEnv) : Bool :=
  if env.autoCleanup then true
  else if env.isTTY then confirmModel env.isTTY env.cleanupAnswer
  else false

/-- The removal commands issued by `removeWorktree` (worktree.ts:231-255)
when cleanup was decided. -/
def cleanupCmds (env : ApplyEnv) (d : WorktreeDescriptor) : List GitCmd :=
  if doCleanup env then [.worktreeRemove d.worktreeName, .branchDelete d.branchName]
  else []

/-- `applyAgent` (apply.ts:55-218): validation, descriptor lookup, remote
check, optional base sync, the `--no-ff` merge, then cleanup.  Returns the
git commands issued together with the result; errors thrown before the merge
phase issue no commands. -/
def applyModel (env : ApplyEnv) : List GitCmd × Except ApplyError ApplyOutcome :=
  if env.currentBranch == "main" then ([], .error .alreadyOnBase)
  else if env.currentBranch == "HEAD" || !(startsWithModel "prl/" env.currentBranch) then
    ([], .error .notPrlBranch)
  else
    match describeWorktreeByBranchModel env.dirs env.currentBranch with
    | none =>
      if (listWorktreesModel env.dirs).any
          (fun wt => wt.branchName == env.currentBranch) then
        ([], .error .missingMetadata)
      else
        ([], .error .missingWorktree)
    | some d =>
      if env.mergeOk then
        (remoteCmds env ++ syncCmds env ++
            [.checkout "main", .mergeNoFF env.currentBranch] ++ cleanupCmds env d,
          .ok { baseTip := Commit.merge (baseAfterSync env) env.agentTip,
                worktreeRemoved := doCleanup env })
      else
        (remoteCmds env ++ syncCmds env ++
            [.checkout "main", .mergeNoFF env.currentBranch],
          .error .mergeFailed)

theorem okChar_ne_hyphen {c : Char} (h : okChar c = true) : (c == '-') = false := by
  cases hc : (c == '-') with
  | false => rfl
  | true =>
    have hc' := eq_of_beq hc
    subst hc'
    exact absurd h (by decide)

theorem noAdjH_tail {c : Char} {l : List Char} (h : noAdjH (c :: l) = true) :
    noAdjH l = true := by
  cases l with
  | nil => rfl
  | cons d t =>
    simp only [noAdjH, Bool.and_eq_true] at h
    exact h.2

example {c : Char} {l : List Char} (hc : (c == '-') = false)
    (hl : noAdjH l = true) : noAdjH (c :: l) = true := by
  cases l with
  | nil => rfl
  | cons d t =>
    simp only [noAdjH, Bool.and_eq_true]
    refine ⟨?_, hl⟩
    simp [hc]

theorem noAdjH_cons_hyphen {l : List Char} (hh : headNotH l = true)
    (hl : noAdjH l = true) : noAdjH ('-' :: l) = true := by
  cases l with
  | nil => rfl
  | cons d t =>
    simp only [headNotH, Bool.not_eq_true'] at hh
    simp only [noAdjH, Bool.and_eq_true]
    refine ⟨?_, hl⟩
    simp [hh]

theorem replRuns_all_good : ∀ (cs : List Char) (b : Bool),
    ((replRuns cs b).all goodChar) = true := by
  intro cs
  induction cs with
  | nil => intro b; rfl
  | cons c rest ih =>
    intro b
    cases h : okChar c with
    | true =>
      simp only [replRuns, h, if_true, List.all_cons, Bool.and_eq_true]
      exact ⟨by simp [goodChar, h], ih false⟩
    | false =>
      cases b with
      | true =>
        simpa only [replRuns, h, Bool.false_eq_true, if_false, if_true] using ih true
      | false =>
        simp only [replRuns, h, Bool.false_eq_true, if_false, List.all_cons,
          Bool.and_eq_true]
        exact ⟨by simp [goodChar], ih true⟩

theorem replRuns_headNotH : ∀ cs : List Char,
    headNotH (replRuns cs true) = true := by
  intro cs
  induction cs with
  | nil => rfl
  | cons c rest ih =>
    cases h : okChar c with
    | true => simp [replRuns, h, headNotH, okChar_ne_hyphen h]
    | false => simpa only [replRuns, h, Bool.false_eq_true, if_false, if_true] using ih

theorem noAdjH_cons_ok {c : Char} {l : List Char} (hc : (c == '-') = false)
    (hl : noAdjH l = true) : noAdjH (c :: l) = true := by
  cases l with
  | nil => rfl
  | cons d t =>
    simp only [noAdjH, Bool.and_eq_true]
    refine ⟨?_, hl⟩
    simp [hc]

theorem replRuns_noAdjH : ∀ (cs : List Char) (b : Bool),
    noAdjH (replRuns cs b) = true := by
  intro cs
  induction cs with
  | nil => intro b; rfl
  | cons c rest ih =>
    intro b
    cases h : okChar c with
    | true =>
      simp only [replRuns, h, if_true]
      exact noAdjH_cons_ok (okChar_ne_hyphen h) (ih false)
    | false =>
      cases b with
      | true => simpa only [replRuns, h, Bool.false_eq_true, if_false, if_true] using ih true
      | false =>
        simp only [replRuns, h, Bool.false_eq_true, if_false]
        exact noAdjH_cons_hyphen (replRuns_headNotH rest) (ih true)

theorem all_dropWhile {α : Type} {p q : α → Bool} :
    ∀ l : List α, l.all q = true → (l.dropWhile p).all q = true := by
  intro l
  induction l with
  | nil => intro h; exact h
  | cons c rest ih =>
    intro h
    simp only [List.all_cons, Bool.and_eq_true] at h
    simp only [List.dropWhile]
    cases hp : p c with
    | true => exact ih h.2
    | false => simp [List.all_cons, h.1, h.2]

theorem headNotH_dropWhileH : ∀ l : List Char,
    headNotH (l.dropWhile (fun c => c == '-')) = true := by
  intro l
  induction l with
  | nil => rfl
  | cons c rest ih =>
    simp only [List.dropWhile]
    cases hc : (c == '-') with
    | true => simpa using ih
    | false => simp [headNotH, hc]

theorem noAdjH_dropWhile (p : Char → Bool) : ∀ l : List Char,
    noAdjH l = true → noAdjH (l.dropWhile p) = true := by
  intro l
  induction l with
  | nil => intro h; exact h
  | cons c rest ih =>
    intro h
    simp only [List.dropWhile]
    cases hp : p c with
    | true => exact ih (noAdjH_tail h)
    | false => simpa using h

theorem dropTrailingH_all {q : Char → Bool} : ∀ l : List Char,
    l.all q = true → (dropTrailingH l).all q = true := by
  intro l
  induction l with
  | nil => intro h; exact h
  | cons c rest ih =>
    intro h
    simp only [List.all_cons, Bool.and_eq_true] at h
    have hrec := ih h.2
    simp only [dropTrailingH]
    cases hd : dropTrailingH rest with
    | nil =>
      cases hc : (c == '-') with
      | true => simp
      | false => simp [h.1]
    | cons d t =>
      rw [hd] at hrec
      simp only [List.all_cons, Bool.and_eq_true] at hrec ⊢
      exact ⟨h.1, hrec⟩

theorem dropTrailingH_head : ∀ (l : List Char) (d : Char) (t : List Char),
    dropTrailingH l = d :: t → ∃ t', l = d :: t' := by
  intro l d t h
  cases l with
  | nil => exact absurd h (by simp [dropTrailingH])
  | cons c rest =>
    simp only [dropTrailingH] at h
    cases hd : dropTrailingH rest with
    | nil =>
      rw [hd] at h
      cases hc : (c == '-') with
      | true => rw [if_pos hc] at h; exact absurd h (by simp)
      | false =>
        rw [if_neg (by simp [hc])] at h
        have hcd : c = d := List.head_eq_of_cons_eq h
        exact ⟨rest, by rw [hcd]⟩
    | cons e u =>
      rw [hd] at h
      have hcd : c = d := List.head_eq_of_cons_eq h
      exact ⟨rest, by rw [hcd]⟩

theorem dropTrailingH_lastNotH : ∀ l : List Char,
    lastNotH (dropTrailingH l) = true := by
  intro l
  induction l with
  | nil => rfl
  | cons c rest ih =>
    simp only [dropTrailingH]
    cases hd : dropTrailingH rest with
    | nil =>
      cases hc : (c == '-') with
      | true => simp [hc, lastNotH]
      | false => simp [hc, lastNotH]
    | cons d t =>
      rw [hd] at ih
      simpa [lastNotH] using ih

theorem dropTrailingH_headNotH : ∀ l : List Char, headNotH l = true →
    headNotH (dropTrailingH l) = true := by
  intro l h
  cases l with
  | nil => rfl
  | cons c rest =>
    simp only [headNotH, Bool.not_eq_true'] at h
    simp only [dropTrailingH]
    cases hd : dropTrailingH rest with
    | nil => simp [h, headNotH]
    | cons d t => simp [headNotH, h]

theorem dropTrailingH_noAdjH : ∀ l : List Char, noAdjH l = true →
    noAdjH (dropTrailingH l) = true := by
  intro l
  induction l with
  | nil => intro h; exact h
  | cons c rest ih =>
    intro h
    have hrec := ih (noAdjH_tail h)
    simp only [dropTrailingH]
    cases hd : dropTrailingH rest with
    | nil =>
      cases hc : (c == '-') with
      | true => simp [hc, noAdjH]
      | false => simp [hc, noAdjH]
    | cons d t =>
      rw [hd] at hrec
      obtain ⟨t', ht'⟩ := dropTrailingH_head rest d t hd
      rw [ht'] at h
      simp only [noAdjH, Bool.and_eq_true] at h ⊢
      exact ⟨h.1, hrec⟩

theorem collapseH_id : ∀ (l : List Char) (b : Bool), noAdjH l = true →
    (b = true → headNotH l = true) → collapseH l b = l := by
  intro l
  induction l with
  | nil => intro b _ _; rfl
  | cons c rest ih =>
    intro b hadj hhead
    cases hc : (c == '-') with
    | true =>
      have hc' := eq_of_beq hc
      have hb : b = false := by
        cases b with
        | false => rfl
        | true => exact absurd (hhead rfl) (by simp [headNotH, hc])
      subst hb
      have hrest : headNotH rest = true := by
        cases rest with
        | nil => rfl
        | cons d t =>
          subst hc'
          simp only [noAdjH, Bool.and_eq_true] at hadj
          have h1 := hadj.1
          simp only [Bool.not_eq_true', Bool.and_eq_false_iff] at h1
          cases h1 with
          | inl h1 => exact absurd h1 (by simp)
          | inr h1 => simp [headNotH, h1]
      simp only [collapseH, hc, if_true, Bool.false_eq_true, if_false]
      rw [ih true (noAdjH_tail hadj) (fun _ => hrest)]
      simp [eq_of_beq hc]
    | false =>
      simp only [collapseH, hc, Bool.false_eq_true, if_false]
      rw [ih false (noAdjH_tail hadj) (by intro hf; exact absurd hf (by simp))]

theorem lastNotH_tail {c : Char} {l : List Char} (h : lastNotH (c :: l) = true) :
    lastNotH l = true := by
  cases l with
  | nil => rfl
  | cons d t => exact h

theorem segRest_of_inv : ∀ (n : Nat) (l : List Char), l.length ≤ n →
    l.all goodChar = true → lastNotH l = true → noAdjH l = true →
    segRest l = true := by
  intro n
  induction n with
  | zero =>
    intro l hlen _ _ _
    have hnil : l = [] := List.eq_nil_of_length_eq_zero (Nat.le_zero.mp hlen)
    subst hnil
    rfl
  | succ n ih =>
    intro l hlen hall hlast hadj
    cases l with
    | nil => rfl
    | cons c rest =>
      simp only [List.all_cons, Bool.and_eq_true] at hall
      cases hok : okChar c with
      | true =>
        cases rest with
        | nil => exact hok
        | cons d t =>
          simp only [segRest, hok, if_true]
          refine ih (d :: t) ?_ hall.2 (lastNotH_tail hlast) (noAdjH_tail hadj)
          simp only [List.length_cons] at hlen ⊢
          omega
      | false =>
        have hc : (c == '-') = true := by
          have hg := hall.1
          simp only [goodChar, hok, Bool.false_or] at hg
          exact hg
        cases rest with
        | nil => exact absurd hlast (by simp [lastNotH, hc])
        | cons d t =>
          simp only [segRest, hok, Bool.false_eq_true, if_false, hc, if_true]
          have hdok : okChar d = true := by
            simp only [noAdjH, Bool.and_eq_true] at hadj
            have h1 := hadj.1
            simp only [Bool.not_eq_true', Bool.and_eq_false_iff, hc] at h1
            cases h1 with
            | inl h1 => exact absurd h1 (by simp)
            | inr h1 =>
              have hd := hall.2
              simp only [List.all_cons, Bool.and_eq_true] at hd
              have hgd := hd.1
              simp only [goodChar, h1, Bool.or_false] at hgd
              exact hgd
          simp only [hdok, Bool.true_and]
          have hlen2 : t.length ≤ n := by
            simp only [List.length_cons] at hlen
            omega
          have hallt : t.all goodChar = true := by
            have hd := hall.2
            simp only [List.all_cons, Bool.and_eq_true] at hd
            exact hd.2
          exact ih t hlen2 hallt (lastNotH_tail (lastNotH_tail hlast))
            (noAdjH_tail (noAdjH_tail hadj))

theorem sanitizeList_inv (cs : List Char) :
    (sanitizeList cs).all goodChar = true ∧ headNotH (sanitizeList cs) = true ∧
    lastNotH (sanitizeList cs) = true ∧ noAdjH (sanitizeList cs) = true := by
  unfold sanitizeList
  have h1 := replRuns_all_good ((trimChars cs).map Char.toLower) false
  have h2 := replRuns_noAdjH ((trimChars cs).map Char.toLower) false
  have h3 := all_dropWhile (p := fun c => c == '-') _ h1
  have h4 := headNotH_dropWhileH (replRuns ((trimChars cs).map Char.toLower) false)
  have h5 := noAdjH_dropWhile (fun c => c == '-') _ h2
  have h6 := dropTrailingH_all _ h3
  have h7 := dropTrailingH_headNotH _ h4
  have h8 := dropTrailingH_lastNotH
    ((replRuns ((trimChars cs).map Char.toLower) false).dropWhile (fun c => c == '-'))
  have h9 := dropTrailingH_noAdjH _ h5
  rw [collapseH_id _ false h9 (by intro hf; exact absurd hf (by simp))]
  exact ⟨h6, h7, h8, h9⟩

theorem sanitizeList_seg (cs : List Char) (h : sanitizeList cs ≠ []) :
    segMatch (sanitizeList cs) = true := by
  obtain ⟨h1, h2, h3, h4⟩ := sanitizeList_inv cs
  cases hl : sanitizeList cs with
  | nil => exact absurd hl h
  | cons c rest =>
    rw [hl] at h1 h2 h3 h4
    simp only [List.all_cons, Bool.and_eq_true] at h1
    simp only [headNotH, Bool.not_eq_true'] at h2
    have hok : okChar c = true := by
      have hg := h1.1
      simp only [goodChar, h2, Bool.or_false] at hg
      exact hg
    simp only [segMatch, hok, Bool.true_and]
    exact segRest_of_inv rest.length rest (Nat.le_refl _) h1.2
      (lastNotH_tail h3) (noAdjH_tail h4)

/-- C9: for every raw input string, the sanitize operation used in name
resolution (sanitize with the `agent` fallback) produces a segment matching
the regex of nonempty lowercase-alphanumeric blocks separated by single
hyphens, and produces the fallback literal `agent` exactly when the raw
input sanitizes to the empty string. -/
theorem c9_sanitize_wellformed (s : String) :
    segMatch (sanitizeFallback s).data = true ∧
    (sanitizeSegment s = "" → sanitizeFallback s = "agent") := by
  constructor
  · cases he : (sanitizeSegment s == "") with
    | true =>
      have hval : sanitizeFallback s = "agent" := by
        unfold sanitizeFallback
        rw [he]
        simp only [if_true]
      rw [hval]
      decide
    | false =>
      have hne : sanitizeList s.data ≠ [] := by
        intro hnil
        have hz : sanitizeSegment s = "" := by
          unfold sanitizeSegment
          rw [hnil]
        rw [hz] at he
        simp at he
      have hseg := sanitizeList_seg s.data hne
      have hval : sanitizeFallback s = sanitizeSegment s := by
        unfold sanitizeFallback
        rw [he]
        simp only [Bool.false_eq_true, if_false]
      rw [hval]
      exact hseg
  · intro h
    simp [sanitizeFallback, h]

/-! ### Loop correctness of the fuelled candidate searches -/

theorem findAvailAux_spec (s : FsState) (base : String) :
    ∀ (fuel k : Nat) (name : String), findAvailAux s base fuel k = some name →
      ∃ m, k ≤ m ∧ name = wtCand base m ∧ wtTaken s (wtCand base m) = false ∧
        ∀ j, k ≤ j → j < m → wtTaken s (wtCand base j) = true := by
  intro fuel
  induction fuel with
  | zero =>
    intro k name h
    exact absurd h (by simp [findAvailAux])
  | succ fuel ih =>
    intro k name h
    simp only [findAvailAux] at h
    cases ht : wtTaken s (wtCand base k) with
    | false =>
      rw [ht] at h
      simp only [Bool.false_eq_true, if_false, Option.some.injEq] at h
      refine ⟨k, Nat.le_refl k, h.symm, ht, ?_⟩
      intro j hj1 hj2
      omega
    | true =>
      rw [ht] at h
      simp only [if_true] at h
      obtain ⟨m, hm1, hm2, hm3, hm4⟩ := ih (k + 1) name h
      refine ⟨m, by omega, hm2, hm3, ?_⟩
      intro j hj1 hj2
      rcases Nat.lt_or_ge j (k + 1) with hj | hj
      · have hjk : j = k := by omega
        rw [hjk]
        exact ht
      · exact hm4 j hj hj2

theorem findBrAux_spec (s : FsState) (seg : String) :
    ∀ (fuel n : Nat) (br : String), findBrAux s seg fuel n = some br →
      ∃ m, n ≤ m ∧ br = brCand seg m ∧ branchExistsB s (brCand seg m) = false ∧
        ∀ j, n ≤ j → j < m → branchExistsB s (brCand seg j) = true := by
  intro fuel
  induction fuel with
  | zero =>
    intro n br h
    exact absurd h (by simp [findBrAux])
  | succ fuel ih =>
    intro n br h
    simp only [findBrAux] at h
    cases ht : branchExistsB s (brCand seg n) with
    | false =>
      rw [ht] at h
      simp only [Bool.false_eq_true, if_false, Option.some.injEq] at h
      refine ⟨n, Nat.le_refl n, h.symm, ht, ?_⟩
      intro j hj1 hj2
      omega
    | true =>
      rw [ht] at h
      simp only [if_true] at h
      obtain ⟨m, hm1, hm2, hm3, hm4⟩ := ih (n + 1) br h
      refine ⟨m, by omega, hm2, hm3, ?_⟩
      intro j hj1 hj2
      rcases Nat.lt_or_ge j (n + 1) with hj | hj
      · have hjn : j = n := by omega
        rw [hjn]
        exact ht
      · exact hm4 j hj hj2

/-- C2: whenever the default worktree-name search terminates, it returns the
candidate `wtCand base m` of the smallest index `m` for which neither the
directory nor the branch `prl/<candidate>` exists; every smaller candidate
(tried in increasing order, `base` first, then `base-1`, `base-2`, ...) fails
at least one existence check, and when `base` itself is free the result is
`base` (index 0). -/
theorem c2_default_name_minimal (s : FsState) (base : String) (fuel : Nat)
    (name : String) (h : findAvailableWorktreeName s base fuel = some name) :
    ∃ m, name = wtCand base m ∧ wtTaken s (wtCand base m) = false ∧
      (∀ j, j < m → wtTaken s (wtCand base j) = true) ∧
      (wtTaken s base = false → m = 0) := by
  obtain ⟨m, _, hm2, hm3, hm4⟩ := findAvailAux_spec s base fuel 0 name h
  refine ⟨m, hm2, hm3, fun j hj => hm4 j (Nat.zero_le j) hj, ?_⟩
  intro hfree
  by_contra hm0
  have h0 : wtTaken s (wtCand base 0) = true :=
    hm4 0 (Nat.le_refl 0) (Nat.pos_of_ne_zero hm0)
  rw [show wtCand base 0 = base from rfl] at h0
  rw [hfree] at h0
  exact absurd h0 (by simp)

/-- Witness for C2, at the spec's second-collision scenario: with directory
`writer` and branch `prl/writer-1` taken, the search returns `writer-2`. -/
theorem c2_default_name_minimal_witness :
    ∃ m, ("writer-2" : String) = wtCand "writer" m ∧
      wtTaken { dirs := ["writer"], branches := ["prl/writer-1"] } (wtCand "writer" m) = false ∧
      (∀ j, j < m →
        wtTaken { dirs := ["writer"], branches := ["prl/writer-1"] } (wtCand "writer" j) = true) ∧
      (wtTaken { dirs := ["writer"], branches := ["prl/writer-1"] } "writer" = false → m = 0) := by
  have h := c2_default_name_minimal
    { dirs := ["writer"], branches := ["prl/writer-1"] } "writer" 5 "writer-2" (by decide)
  exact h


/-- C7: on the explicit-naming path (a nonempty explicit name), creation
fails with the collision error the moment a directory with the sanitized
name exists — for any fuel, so no auto-increment of the worktree name is
attempted and the error precedes any mutation; otherwise the worktree name
is the sanitized explicit name and the branch is `prl/<sanitize(agent)>-N`
for the smallest N ≥ 1 whose branch does not exist, independent of the
worktree name; in particular explicit name `scratch` for agent `writer` with
`prl/writer-1` taken yields worktree `scratch` and branch `prl/writer-2`. -/
theorem c7_explicit_name_resolution :
    (∀ (s : FsState) (agent e : String) (fuel : Nat), e ≠ "" →
      worktreeDirExists s (sanitizeSegment e) = true →
      resolveCreateNames s agent (some e) fuel =
        some (.collision (sanitizeSegment e))) ∧
    (∀ (s : FsState) (agent e : String) (fuel : Nat) (wt br : String), e ≠ "" →
      worktreeDirExists s (sanitizeSegment e) = false →
      resolveCreateNames s agent (some e) fuel = some (.ok wt br) →
      wt = sanitizeSegment e ∧
        ∃ n, 1 ≤ n ∧ br = brCand (sanitizeFallback agent) n ∧
          branchExistsB s (brCand (sanitizeFallback agent) n) = false ∧
          ∀ m, 1 ≤ m → m < n →
            branchExistsB s (brCand (sanitizeFallback agent) m) = true) ∧
    resolveCreateNames { dirs := [], branches := ["prl/writer-1"] } "writer"
      (some "scratch") 5 = some (.ok "scratch" "prl/writer-2") := by
  refine ⟨?_, ?_, by decide⟩
  · intro s agent e fuel he hdir
    have hbe : (e == "") = false := beq_eq_false_iff_ne.mpr he
    simp only [resolveCreateNames, hbe, Bool.false_eq_true, if_false, hdir, if_true]
  · intro s agent e fuel wt br he hdir h
    have hbe : (e == "") = false := beq_eq_false_iff_ne.mpr he
    simp only [resolveCreateNames, hbe, Bool.false_eq_true, if_false, hdir,
      Option.map_eq_some'] at h
    obtain ⟨br0, hbr0, hmk⟩ := h
    obtain ⟨hwt, hbr⟩ : wt = sanitizeSegment e ∧ br0 = br := by
      cases hmk
      exact ⟨rfl, rfl⟩
    refine ⟨hwt, ?_⟩
    rw [← hbr]
    obtain ⟨m, hm1, hm2, hm3, hm4⟩ :=
      findBrAux_spec s (sanitizeFallback agent) fuel 1 br0 hbr0
    exact ⟨m, hm1, hm2, hm3, fun j hj1 hj2 => hm4 j hj1 hj2⟩

/-- Witness for C7, discharging its hypotheses at concrete inputs: a
collision on explicit name `x` whose directory exists, and the free case for
explicit name `scratch`. -/
theorem c7_explicit_name_resolution_witness :
    resolveCreateNames { dirs := ["x"], branches := [] } "writer" (some "x") 0 =
      some (.collision "x") ∧
    resolveCreateNames { dirs := [], branches := ["prl/writer-1"] } "writer"
      (some "scratch") 5 = some (.ok "scratch" "prl/writer-2") := by
  constructor
  · have h := c7_explicit_name_resolution.1
      { dirs := ["x"], branches := [] } "writer" "x" 0 (by decide) (by decide)
    have hx : sanitizeSegment "x" = "x" := by decide
    rw [hx] at h
    exact h
  · exact c7_explicit_name_resolution.2.2

/-- C10 (implicit): when a nonempty explicit worktree name sanitizes to the
empty string, the computed worktree path is the container itself (Node's
join drops the empty segment), which `createWorktree` has just ensured
exists, so the directory-collision error is thrown — for any state and any
fuel, before any branch search or creation — and the `agent` fallback is
never applied on the explicit path (the reported colliding name is the empty
string, not `agent`). -/
theorem c10_empty_explicit_name_collides (s : FsState) (agent e : String)
    (fuel : Nat) (he : e ≠ "") (hsan : sanitizeSegment e = "") :
    worktreeDirExists s "" = true ∧
    resolveCreateNames s agent (some e) fuel = some (.collision "") := by
  have hdir : worktreeDirExists s "" = true := by
    simp [worktreeDirExists]
  refine ⟨hdir, ?_⟩
  have hbe : (e == "") = false := beq_eq_false_iff_ne.mpr he
  simp only [resolveCreateNames, hbe, Bool.false_eq_true, if_false, hsan, hdir, if_true]

/-- Witness for C10: the explicit name `!!!` is nonempty but sanitizes to the
empty string, so creation collides with the container for any state. -/
theorem c10_empty_explicit_name_collides_witness :
    worktreeDirExists { dirs := [], branches := [] } "" = true ∧
    resolveCreateNames { dirs := [], branches := [] } "writer" (some "!!!") 3 =
      some (.collision "") :=
  c10_empty_explicit_name_collides { dirs := [], branches := [] } "writer" "!!!" 3
    (by decide) (by decide)


/-! ### C1: the rollback's flag guard -/

/-- C1 (code bug): at the failing input — a cancellation signal observed
while the external `git worktree add` call is still pending, after git has
already materialized both the directory and the branch — `cleanup` runs with
both created-flags still false (they are assigned only after the `await`
returns, worktree.ts:198-199), so it attempts neither the directory removal
nor the branch deletion and leaves both in place; the same flag values are
in force in the failure path (`catch` at worktree.ts:200-203).  The claim
(and the scripted twin `cleanup_on_signal`, which tests bare existence)
requires both removals to be attempted whenever the resources exist. -/
theorem c1_pending_cleanup_attempts_nothing :
    cleanupAttempts pendingFlags { dirExists := true, brExists := true } =
      (false, false) ∧
    cleanupRun pendingFlags { dirExists := true, brExists := true } =
      { dirExists := true, brExists := true } := by
  decide

/-! ### String-shape helpers for branch names -/

theorem dataAppendPrl (a : String) :
    (buildBranchName a).data = 'p' :: 'r' :: 'l' :: '/' :: a.data := rfl

theorem buildBranchName_inj {a b : String}
    (h : buildBranchName a = buildBranchName b) : a = b := by
  have hd : 'p' :: 'r' :: 'l' :: '/' :: a.data =
      'p' :: 'r' :: 'l' :: '/' :: b.data := congrArg String.data h
  have hdd : a.data = b.data := by simpa using hd
  exact String.ext hdd

theorem buildBranchName_ne_main (a : String) : buildBranchName a ≠ "main" := by
  intro h
  have hd : 'p' :: 'r' :: 'l' :: '/' :: a.data =
      'm' :: 'a' :: 'i' :: 'n' :: ([] : List Char) := congrArg String.data h
  have hpm : ('p' : Char) = 'm' := List.head_eq_of_cons_eq hd
  exact absurd hpm (by decide)

theorem buildBranchName_ne_head (a : String) : buildBranchName a ≠ "HEAD" := by
  intro h
  have hd : 'p' :: 'r' :: 'l' :: '/' :: a.data =
      'H' :: 'E' :: 'A' :: 'D' :: ([] : List Char) := congrArg String.data h
  have hph : ('p' : Char) = 'H' := List.head_eq_of_cons_eq hd
  exact absurd hph (by decide)

theorem leadsB_append (l m : List Char) : leadsB l (l ++ m) = true := by
  induction l with
  | nil => rfl
  | cons a as ih => simp [leadsB, ih]

theorem startsWith_buildBranchName (a : String) :
    startsWithModel "prl/" (buildBranchName a) = true := by
  have hd : (buildBranchName a).data = "prl/".data ++ a.data := rfl
  unfold startsWithModel
  rw [hd]
  exact leadsB_append _ _

/-- C5: invoked while the current branch is the base branch `main`, apply
fails with the already-on-base context error and issues no git command at
all — in particular no checkout of the base branch and no merge — so the
repository is untouched by the failed invocation. -/
theorem c5_apply_on_base_is_context_error (env : ApplyEnv)
    (h : env.currentBranch = "main") :
    applyModel env = ([], .error .alreadyOnBase) := by
  unfold applyModel
  rw [h]
  simp

/-- Witness for C5 at a concrete environment standing on `main`. -/
theorem c5_apply_on_base_is_context_error_witness :
    applyModel
      { currentBranch := "main", dirs := ["writer"], isTTY := false,
        hasUpstream := false, remoteAhead := false, fetchAnswer := "",
        syncOk := false, syncedTip := Commit.base 0, mergeOk := true,
        autoCleanup := false, cleanupAnswer := "", baseTip := Commit.base 0,
        agentTip := Commit.base 1 } = ([], .error .alreadyOnBase) :=
  c5_apply_on_base_is_context_error _ rfl


/-- C4: whenever apply succeeds, the resulting base-branch tip is a merge
commit with two parents (the pre-merge base tip and the agent tip), and the
merge command issued is the no-fast-forward merge of the current branch —
the model's merge primitive follows the spec's contract that a `--no-ff`
merge always creates a merge commit, even for a fast-forward candidate. -/
theorem c4_success_yields_two_parent_merge (env : ApplyEnv) (tr : List GitCmd)
    (out : ApplyOutcome) (h : applyModel env = (tr, .ok out)) :
    (∃ p q, out.baseTip = Commit.merge p q) ∧
      GitCmd.mergeNoFF env.currentBranch ∈ tr := by
  unfold applyModel at h
  split at h
  · exact absurd h (by simp)
  · split at h
    · exact absurd h (by simp)
    · split at h
      · split at h
        · exact absurd h (by simp)
        · exact absurd h (by simp)
      · split at h
        · rw [Prod.mk.injEq] at h
          obtain ⟨htr, hout⟩ := h
          injection hout with h3
          constructor
          · exact ⟨baseAfterSync env, env.agentTip, by rw [← h3]⟩
          · rw [← htr]
            simp [List.mem_append]
        · exact absurd h (by simp)

/-- Witness for C4 at a concrete successful run. -/
theorem c4_success_yields_two_parent_merge_witness :
    (∃ p q,
      ({ baseTip := Commit.merge (Commit.base 0) (Commit.base 1),
         worktreeRemoved := false } : ApplyOutcome).baseTip = Commit.merge p q) ∧
    GitCmd.mergeNoFF "prl/writer" ∈
      [GitCmd.checkout "main", GitCmd.mergeNoFF "prl/writer"] :=
  c4_success_yields_two_parent_merge
    { currentBranch := "prl/writer", dirs := ["writer"], isTTY := false,
      hasUpstream := false, remoteAhead := false, fetchAnswer := "",
      syncOk := false, syncedTip := Commit.base 0, mergeOk := true,
      autoCleanup := false, cleanupAnswer := "", baseTip := Commit.base 0,
      agentTip := Commit.base 1 }
    [GitCmd.checkout "main", GitCmd.mergeNoFF "prl/writer"]
    { baseTip := Commit.merge (Commit.base 0) (Commit.base 1),
      worktreeRemoved := false }
    rfl


/-! ### C3: locating a worktree from a branch name -/

theorem describe_eq_none {dirs : List String} {suffix : String}
    (h : suffix ∉ dirs) :
    describeWorktreeByBranchModel dirs (buildBranchName suffix) = none := by
  unfold describeWorktreeByBranchModel
  rw [List.find?_eq_none]
  intro d hd
  simp only [listWorktreesModel, List.mem_map] at hd
  obtain ⟨w, hw, rfl⟩ := hd
  intro hbeq
  have heq : buildBranchName w = buildBranchName suffix := eq_of_beq hbeq
  have hws : w = suffix := buildBranchName_inj heq
  exact h (hws ▸ hw)

theorem any_branch_eq_false {dirs : List String} {suffix : String}
    (h : suffix ∉ dirs) :
    ((listWorktreesModel dirs).any
      (fun wt => wt.branchName == buildBranchName suffix)) = false := by
  cases hb : (listWorktreesModel dirs).any
      (fun wt => wt.branchName == buildBranchName suffix) with
  | false => rfl
  | true =>
    rw [List.any_eq_true] at hb
    obtain ⟨d, hd, hp⟩ := hb
    simp only [listWorktreesModel, List.mem_map] at hd
    obtain ⟨w, hw, rfl⟩ := hd
    have heq : buildBranchName w = buildBranchName suffix := eq_of_beq hp
    exact absurd ((buildBranchName_inj heq) ▸ hw) h

/-- C3 as amended: for a worktree directory whose branch suffix differs from
its directory name, and when additionally no other managed directory entry
is named exactly the branch suffix, the descriptor lookup by branch name
returns nothing, and apply from that branch fails with the missing-worktree
error before issuing any git command. -/
theorem c3_amended_lookup_fails (dirs : List String) (wtName suffix : String)
    (_hmem : wtName ∈ dirs) (_hne : wtName ≠ suffix) (hab : suffix ∉ dirs) :
    describeWorktreeByBranchModel dirs (buildBranchName suffix) = none ∧
    ∀ env : ApplyEnv, env.dirs = dirs →
      env.currentBranch = buildBranchName suffix →
      applyModel env = ([], .error .missingWorktree) := by
  refine ⟨describe_eq_none hab, ?_⟩
  intro env hdirs hcur
  unfold applyModel
  rw [hcur, hdirs]
  rw [beq_eq_false_iff_ne.mpr (buildBranchName_ne_main suffix)]
  rw [beq_eq_false_iff_ne.mpr (buildBranchName_ne_head suffix)]
  rw [startsWith_buildBranchName suffix]
  rw [describe_eq_none hab]
  rw [any_branch_eq_false hab]
  simp

/-- Witness for the amended C3 at a concrete aliasing-free state. -/
theorem c3_amended_lookup_fails_witness :
    describeWorktreeByBranchModel ["scratch"] (buildBranchName "writer-1") = none ∧
    applyModel
      { currentBranch := buildBranchName "writer-1", dirs := ["scratch"],
        isTTY := false, hasUpstream := false, remoteAhead := false,
        fetchAnswer := "", syncOk := false, syncedTip := Commit.base 0,
        mergeOk := true, autoCleanup := false, cleanupAnswer := "",
        baseTip := Commit.base 0, agentTip := Commit.base 1 } =
      ([], .error .missingWorktree) := by
  have h := c3_amended_lookup_fails ["scratch"] "scratch" "writer-1"
    (by decide) (by decide) (by decide)
  exact ⟨h.1, h.2 _ rfl rfl⟩

/-- Counterexample to C3 as stated: the explicit worktree `scratch` carries
branch `prl/writer-2` (suffix differs from the directory name), yet because
another managed entry happens to be named `writer-2`, the descriptor lookup
returns that unrelated entry instead of nothing, and apply proceeds to a
successful merge instead of failing.  Such a state is reachable with three
creations: explicit name `writer-2` for another agent, then two explicit
creations for agent `writer` taking branches `prl/writer-1` and
`prl/writer-2`. -/
theorem c3_counterexample_alias :
    ("scratch" : String) ∈ (["scratch", "writer-2"] : List String) ∧
    ("writer-2" : String) ≠ "scratch" ∧
    describeWorktreeByBranchModel ["scratch", "writer-2"]
        (buildBranchName "writer-2") =
      some { agent := "writer-2", branchName := "prl/writer-2",
             worktreeName := "writer-2" } ∧
    (applyModel
      { currentBranch := buildBranchName "writer-2",
        dirs := ["scratch", "writer-2"], isTTY := false, hasUpstream := false,
        remoteAhead := false, fetchAnswer := "", syncOk := false,
        syncedTip := Commit.base 0, mergeOk := true, autoCleanup := false,
        cleanupAnswer := "", baseTip := Commit.base 0,
        agentTip := Commit.base 1 }).2 =
      .ok { baseTip := Commit.merge (Commit.base 0) (Commit.base 1),
            worktreeRemoved := false } :=
  ⟨by decide, by decide, by decide, rfl⟩

/-! ### C6: listing and the template entry -/

/-- Counterexample to C6 as stated: the library `listWorktrees` does not
exclude the reserved `template` entry — with `template` present under the
container it returns a descriptor named `template` (which the library prune
path then offers for removal). -/
theorem c6_counterexample_template_listed :
    ({ agent := "template", branchName := "prl/template",
       worktreeName := "template" } : WorktreeDescriptor) ∈
      listWorktreesModel ["template", "writer"] := by
  decide

/-- C6 as amended: the scripted `list_worktrees` returns exactly the
directory entries other than `template` (never a `template` descriptor),
while the library `listWorktrees` returns one descriptor per directory entry
with no exclusion. -/
theorem c6_amended_listing (dirs : List String) :
    (listWorktreesModel dirs).map (fun d => d.worktreeName) = dirs ∧
    "template" ∉ listWorktreesScript dirs ∧
    ∀ w ∈ dirs, w ≠ "template" → w ∈ listWorktreesScript dirs := by
  refine ⟨?_, ?_, ?_⟩
  · unfold listWorktreesModel
    rw [List.map_map]
    have hcomp : ((fun d : WorktreeDescriptor => d.worktreeName) ∘
        (fun w : String =>
          { agent := w, branchName := buildBranchName w, worktreeName := w })) =
        fun w : String => w := rfl
    rw [hcomp]
    exact List.map_id dirs
  · intro hmem
    simp [listWorktreesScript, List.mem_filter] at hmem
  · intro w hw hne
    simp only [listWorktreesScript, List.mem_filter]
    exact ⟨hw, by simpa using hne⟩

/-- Witness for the amended C6 at a concrete listing with a template entry. -/
theorem c6_amended_listing_witness :
    (listWorktreesModel ["template", "writer"]).map (fun d => d.worktreeName) =
      ["template", "writer"] ∧
    "template" ∉ listWorktreesScript ["template", "writer"] ∧
    "writer" ∈ listWorktreesScript ["template", "writer"] :=
  ⟨(c6_amended_listing ["template", "writer"]).1,
   (c6_amended_listing ["template", "writer"]).2.1,
   (c6_amended_listing ["template", "writer"]).2.2 "writer" (by decide) (by decide)⟩


/-! ### C8: prune confirmation -/

theorem pruneFrom_cons_true (ans : Nat → String) (i : Nat)
    (d : WorktreeDescriptor) (ds : List WorktreeDescriptor) :
    pruneFrom true ans i (d :: ds) =
      if affirmative (ans i) then d :: pruneFrom true ans (i + 1) ds
      else pruneFrom true ans (i + 1) ds := rfl

theorem pruneFrom_cons_false (ans : Nat → String) (i : Nat)
    (d : WorktreeDescriptor) (ds : List WorktreeDescriptor) :
    pruneFrom false ans i (d :: ds) = pruneFrom false ans (i + 1) ds := rfl

theorem pruneFrom_nonTTY (ans : Nat → String) :
    ∀ (ds : List WorktreeDescriptor) (i : Nat), pruneFrom false ans i ds = [] := by
  intro ds
  induction ds with
  | nil => intro i; rfl
  | cons e es ih =>
    intro i
    rw [pruneFrom_cons_false]
    exact ih (i + 1)

theorem pruneFrom_subset (ans : Nat → String) :
    ∀ (ds : List WorktreeDescriptor) (i : Nat) (d : WorktreeDescriptor),
      d ∈ pruneFrom true ans i ds → d ∈ ds := by
  intro ds
  induction ds with
  | nil =>
    intro i d h
    simp [pruneFrom] at h
  | cons e es ih =>
    intro i d h
    rw [pruneFrom_cons_true] at h
    by_cases hc : affirmative (ans i) = true
    · rw [if_pos hc] at h
      rcases List.mem_cons.mp h with h1 | h1
      · exact h1 ▸ List.mem_cons_self e es
      · exact List.mem_cons_of_mem e (ih (i + 1) d h1)
    · rw [if_neg hc] at h
      exact List.mem_cons_of_mem e (ih (i + 1) d h)

theorem pruneFrom_get_mem_iff (ans : Nat → String) :
    ∀ (ds : List WorktreeDescriptor), ds.Nodup → ∀ (i j : Nat) (h : j < ds.length),
      (ds.get ⟨j, h⟩ ∈ pruneFrom true ans i ds ↔ affirmative (ans (i + j)) = true) := by
  intro ds
  induction ds with
  | nil =>
    intro _ i j h
    simp at h
  | cons e es ih =>
    intro hnd i j h
    have hnd1 : e ∉ es := (List.nodup_cons.mp hnd).1
    have hnd2 : es.Nodup := (List.nodup_cons.mp hnd).2
    cases j with
    | zero =>
      have hget : (e :: es).get ⟨0, h⟩ = e := rfl
      rw [hget, pruneFrom_cons_true]
      cases ha : affirmative (ans i) with
      | true =>
        rw [if_pos rfl]
        constructor
        · intro _
          rw [Nat.add_zero]
          exact ha
        · intro _
          exact List.mem_cons_self e _
      | false =>
        rw [if_neg (by simp)]
        constructor
        · intro hmem
          exact absurd (pruneFrom_subset ans es (i + 1) e hmem) hnd1
        · intro hrhs
          rw [Nat.add_zero] at hrhs
          rw [ha] at hrhs
          exact absurd hrhs (by simp)
    | succ j2 =>
      have hlt : j2 < es.length := by simpa using Nat.lt_of_succ_lt_succ (by simpa using h)
      have hget : (e :: es).get ⟨j2 + 1, h⟩ = es.get ⟨j2, hlt⟩ := rfl
      rw [hget, pruneFrom_cons_true]
      have hih := ih hnd2 (i + 1) j2 hlt
      have harith : i + 1 + j2 = i + (j2 + 1) := by omega
      rw [harith] at hih
      by_cases hc : affirmative (ans i) = true
      · rw [if_pos hc]
        rw [List.mem_cons]
        constructor
        · intro hmem
          rcases hmem with h1 | h1
          · exact absurd (h1 ▸ List.get_mem es j2 hlt) hnd1
          · exact hih.mp h1
        · intro hrhs
          exact Or.inr (hih.mpr hrhs)
      · rw [if_neg hc]
        exact hih

/-- C8: prune removes nothing in a non-interactive session (the confirmation
resolves to the negative default without reading input), and in an
interactive session it removes exactly those listed worktrees whose
individual prompt is answered `y` or `yes` (after trim and lowercase). -/
theorem c8_prune_removes_iff_affirmed (dirs : List String)
    (answers : Nat → String) :
    pruneModel false dirs answers = [] ∧
    (dirs.Nodup → ∀ (j : Nat) (h : j < (listWorktreesModel dirs).length),
      ((listWorktreesModel dirs).get ⟨j, h⟩ ∈ pruneModel true dirs answers ↔
        (lowerTrim (answers j) == "y" || lowerTrim (answers j) == "yes") = true)) := by
  constructor
  · exact pruneFrom_nonTTY answers (listWorktreesModel dirs) 0
  · intro hnd j h
    have hinj : Function.Injective
        (fun w : String =>
          ({ agent := w, branchName := buildBranchName w, worktreeName := w } :
            WorktreeDescriptor)) := by
      intro a b hab
      exact congrArg WorktreeDescriptor.worktreeName hab
    have hnodup : (listWorktreesModel dirs).Nodup := hnd.map hinj
    have hiff := pruneFrom_get_mem_iff answers (listWorktreesModel dirs) hnodup 0 j h
    rw [Nat.zero_add] at hiff
    exact hiff

/-- Witness for C8: with one worktree `writer` and the answer `y`, prune
removes it interactively and removes nothing non-interactively. -/
theorem c8_prune_removes_iff_affirmed_witness :
    pruneModel false ["writer"] (fun _ => "y") = [] ∧
    ({ agent := "writer", branchName := "prl/writer", worktreeName := "writer" } :
        WorktreeDescriptor) ∈ pruneModel true ["writer"] (fun _ => "y") := by
  refine ⟨(c8_prune_removes_iff_affirmed ["writer"] (fun _ => "y")).1, ?_⟩
  have h := (c8_prune_removes_iff_affirmed ["writer"] (fun _ => "y")).2
    (by decide) 0 (by decide)
  have hget : (listWorktreesModel ["writer"]).get ⟨0, by decide⟩ =
      { agent := "writer", branchName := "prl/writer", worktreeName := "writer" } := by
    decide
  rw [hget] at h
  exact h.mpr (by decide)


/-- Witness for C9: a mixed-case input with punctuation sanitizes to a
matching segment, and an all-punctuation input falls back to `agent`. -/
theorem c9_sanitize_wellformed_witness :
    segMatch (sanitizeFallback "A b!").data = true ∧
    sanitizeFallback "!!!" = "agent" :=
  ⟨(c9_sanitize_wellformed "A b!").1, (c9_sanitize_wellformed "!!!").2 (by decide)⟩

end Prl
